import Mathlib

/-!
Verification of the SPSC ring buffer and sharded counter aggregator from
`labs/m05_concurrency` (`spsc_ring_bench.cpp`, `counters_contention.cpp`).

The C++ template `SpscRing<T, CapacityPow2>` is embedded shallowly: the two
atomic indices become plain natural numbers (a single-threaded functional
model of the sequential protocol), the slot array `T buf[CapacityPow2]`
becomes a total function from slot index to value, and the masked index
arithmetic `(i + 1) & (CapacityPow2 - 1)` is kept literally as a bitwise
AND on naturals.
-/

namespace SpscBench

/-- State of `SpscRing<T, CapacityPow2>`: head (write index), tail (read
index), and the slot array, modelled as a total function from slot index
to stored value. -/
structure SpscRing where
  head : Nat
  tail : Nat
  buf : Nat → Nat

/-- The bit mask `CapacityPow2 - 1` used for index wrap-around. -/
def mask (Cap : Nat) : Nat := Cap - 1

/-- Embedding of `SpscRing::try_push`: compute `next = (h + 1) & mask`;
if `next == tail` the ring is full and nothing changes; otherwise store
the payload in slot `head` and publish the advanced head. -/
def try_push (Cap : Nat) (s : SpscRing) (x : Nat) : SpscRing × Bool :=
  let h := s.head
  let t := s.tail
  let next := (h + 1) &&& mask Cap
  if next = t then (s, false)
  else ({ head := next, tail := s.tail,
          buf := fun i => if i = h then x else s.buf i }, true)

/-- Embedding of `SpscRing::try_pop`: if `tail == head` the ring is empty
and the out-parameter keeps its previous value; otherwise read slot `tail`
into the out-parameter and retire the slot by advancing the tail. -/
def try_pop (Cap : Nat) (s : SpscRing) (out : Nat) : SpscRing × Bool × Nat :=
  let t := s.tail
  let h := s.head
  if t = h then (s, false, out)
  else
    let out2 := s.buf t
    let next := (t + 1) &&& mask Cap
    ({ head := s.head, tail := next, buf := s.buf }, true, out2)

/-- Loop body of `SpscRing::push_many`: while `pushed < n`, try to push
`xs[pushed]` and stop at the first failure, returning the count pushed. -/
def push_many_go (Cap : Nat) (xs : Nat → Nat) (n : Nat) (s : SpscRing) (pushed : Nat) :
    SpscRing × Nat :=
  if h : pushed < n then
    let r := try_push Cap s (xs pushed)
    if r.2 then push_many_go Cap xs n r.1 (pushed + 1)
    else (r.1, pushed)
  else (s, pushed)
termination_by n - pushed
decreasing_by omega

/-- Embedding of `SpscRing::push_many(xs, n)`. -/
def push_many (Cap : Nat) (s : SpscRing) (xs : Nat → Nat) (n : Nat) : SpscRing × Nat :=
  push_many_go Cap xs n s 0

/-- Loop body of `SpscRing::pop_many`: while `popped < n`, try to pop into
`out[popped]` and stop at the first failure, returning the count popped. -/
def pop_many_go (Cap : Nat) (n : Nat) (s : SpscRing) (out : Nat → Nat) (popped : Nat) :
    SpscRing × (Nat → Nat) × Nat :=
  if h : popped < n then
    let r := try_pop Cap s (out popped)
    let out2 := fun i => if i = popped then r.2.2 else out i
    if r.2.1 then pop_many_go Cap n r.1 out2 (popped + 1)
    else (r.1, out2, popped)
  else (s, out, popped)
termination_by n - popped
decreasing_by omega

/-- Embedding of `SpscRing::pop_many(xs, n)`. -/
def pop_many (Cap : Nat) (s : SpscRing) (out : Nat → Nat) (n : Nat) :
    SpscRing × (Nat → Nat) × Nat :=
  pop_many_go Cap n s out 0

/-- The compile-time capacity check of `SpscRing`:
`static_assert((CapacityPow2 & (CapacityPow2 - 1)) == 0)`. -/
def capacityCheck (Cap : Nat) : Bool := (Cap &&& (Cap - 1)) == 0

/-- A freshly constructed ring (`Ring rb{}`): both indices zero,
value-initialized slots. -/
def initRing : SpscRing := { head := 0, tail := 0, buf := fun _ => 0 }

/-! ### Arithmetic helpers -/

theorem mask_eq_mod (k x : Nat) : x &&& mask (2 ^ k) = x % 2 ^ k :=
  Nat.and_pow_two_sub_one_eq_mod x k

theorem mod_two_cases {Cap : Nat} (hC : 0 < Cap) {a : Nat} (h : a < 2 * Cap) :
    a % Cap = if a < Cap then a else a - Cap := by
  split
  · exact Nat.mod_eq_of_lt (by assumption)
  · rw [Nat.mod_eq_sub_mod (by omega)]
    exact Nat.mod_eq_of_lt (by omega)

/-- Closed form of `try_push` with the mask rewritten as a remainder. -/
theorem try_push_eq (Cap k : Nat) (hCap : Cap = 2 ^ k) (s : SpscRing) (x : Nat) :
    try_push Cap s x =
      if (s.head + 1) % Cap = s.tail then (s, false)
      else ({ head := (s.head + 1) % Cap, tail := s.tail,
              buf := fun i => if i = s.head then x else s.buf i }, true) := by
  subst hCap
  unfold try_push
  simp only [mask_eq_mod]

/-- Closed form of `try_pop` with the mask rewritten as a remainder. -/
theorem try_pop_eq (Cap k : Nat) (hCap : Cap = 2 ^ k) (s : SpscRing) (out : Nat) :
    try_pop Cap s out =
      if s.tail = s.head then (s, false, out)
      else ({ head := s.head, tail := (s.tail + 1) % Cap, buf := s.buf },
            true, s.buf s.tail) := by
  subst hCap
  unfold try_pop
  simp only [mask_eq_mod]

/-! ### C1: try_push functional correctness -/

/-- C1: for every ring-buffer state, `try_push` returns `false` exactly when
`(head + 1) % Capacity == tail`; otherwise it writes the value into slot
`head`, advances `head` to `(head + 1) % Capacity`, leaves `tail` alone and
returns `true`. -/
theorem try_push_spec (k : Nat) (s : SpscRing) (x : Nat) :
    ((try_push (2 ^ k) s x).2 = false ↔ (s.head + 1) % 2 ^ k = s.tail) ∧
    ((s.head + 1) % 2 ^ k ≠ s.tail →
      (try_push (2 ^ k) s x).2 = true ∧
      (try_push (2 ^ k) s x).1.buf s.head = x ∧
      (try_push (2 ^ k) s x).1.head = (s.head + 1) % 2 ^ k ∧
      (try_push (2 ^ k) s x).1.tail = s.tail) := by
  rw [try_push_eq (2 ^ k) k rfl s x]
  by_cases hfull : (s.head + 1) % 2 ^ k = s.tail
  · simp [hfull]
  · simp [hfull]

theorem try_push_spec_witness :
    (initRing.head + 1) % 2 ^ 2 ≠ initRing.tail ∧
    ((try_push (2 ^ 2) initRing 7).2 = true ∧
      (try_push (2 ^ 2) initRing 7).1.buf initRing.head = 7 ∧
      (try_push (2 ^ 2) initRing 7).1.head = (initRing.head + 1) % 2 ^ 2 ∧
      (try_push (2 ^ 2) initRing 7).1.tail = initRing.tail) :=
  ⟨by decide, (try_push_spec 2 initRing 7).2 (by decide)⟩

/-! ### C2: try_pop functional correctness -/

/-- C2: for every ring-buffer state with `tail != head`, `try_pop` copies the
payload of slot `tail` to the out-parameter, advances `tail` to
`(tail + 1) % Capacity`, leaves `head` alone and returns `true`; when
`tail == head` it returns `false`. -/
theorem try_pop_spec (k : Nat) (s : SpscRing) (out : Nat) :
    (s.tail ≠ s.head →
      (try_pop (2 ^ k) s out).2.1 = true ∧
      (try_pop (2 ^ k) s out).2.2 = s.buf s.tail ∧
      (try_pop (2 ^ k) s out).1.tail = (s.tail + 1) % 2 ^ k ∧
      (try_pop (2 ^ k) s out).1.head = s.head) ∧
    (s.tail = s.head → (try_pop (2 ^ k) s out).2.1 = false) := by
  rw [try_pop_eq (2 ^ k) k rfl s out]
  by_cases hempty : s.tail = s.head
  · simp [hempty]
  · simp [hempty]

theorem try_pop_spec_witness :
    (SpscRing.mk 1 0 (fun _ => 3)).tail ≠ (SpscRing.mk 1 0 (fun _ => 3)).head ∧
    ((try_pop (2 ^ 2) (SpscRing.mk 1 0 (fun _ => 3)) 9).2.1 = true ∧
      (try_pop (2 ^ 2) (SpscRing.mk 1 0 (fun _ => 3)) 9).2.2 =
        (SpscRing.mk 1 0 (fun _ => 3)).buf (SpscRing.mk 1 0 (fun _ => 3)).tail ∧
      (try_pop (2 ^ 2) (SpscRing.mk 1 0 (fun _ => 3)) 9).1.tail =
        ((SpscRing.mk 1 0 (fun _ => 3)).tail + 1) % 2 ^ 2 ∧
      (try_pop (2 ^ 2) (SpscRing.mk 1 0 (fun _ => 3)) 9).1.head =
        (SpscRing.mk 1 0 (fun _ => 3)).head) :=
  ⟨by decide, (try_pop_spec 2 (SpscRing.mk 1 0 (fun _ => 3)) 9).1 (by decide)⟩

/-! ### C5: failure cases leave the state untouched -/

/-- C5: calling `try_push` on a full ring or `try_pop` on an empty ring
returns `false` and leaves the whole state (head, tail and every slot) and
the out-parameter exactly as they were. -/
theorem failure_leaves_state_unchanged (k : Nat) (s : SpscRing) (x out : Nat) :
    ((s.head + 1) % 2 ^ k = s.tail → try_push (2 ^ k) s x = (s, false)) ∧
    (s.tail = s.head → try_pop (2 ^ k) s out = (s, false, out)) := by
  constructor
  · intro hfull
    rw [try_push_eq (2 ^ k) k rfl s x]
    simp [hfull]
  · intro hempty
    rw [try_pop_eq (2 ^ k) k rfl s out]
    simp [hempty]

theorem failure_leaves_state_unchanged_witness :
    ((SpscRing.mk 1 0 (fun _ => 0)).head + 1) % 2 ^ 1 = (SpscRing.mk 1 0 (fun _ => 0)).tail ∧
    try_push (2 ^ 1) (SpscRing.mk 1 0 (fun _ => 0)) 5 = (SpscRing.mk 1 0 (fun _ => 0), false) ∧
    initRing.tail = initRing.head ∧
    try_pop (2 ^ 1) initRing 9 = (initRing, false, 9) :=
  ⟨by decide,
   (failure_leaves_state_unchanged 1 (SpscRing.mk 1 0 (fun _ => 0)) 5 9).1 (by decide),
   by decide,
   (failure_leaves_state_unchanged 1 initRing 5 9).2 (by decide)⟩

/-! ### Index arithmetic for the wrap-around protocol -/

theorem mod_facts {Cap : Nat} (hC : 0 < Cap) {a : Nat} (h : a < 2 * Cap) :
    a % Cap < Cap ∧ (a % Cap = a ∨ (a % Cap = a - Cap ∧ Cap ≤ a)) := by
  refine ⟨Nat.mod_lt _ hC, ?_⟩
  by_cases hlt : a < Cap
  · exact Or.inl (Nat.mod_eq_of_lt hlt)
  · refine Or.inr ⟨?_, by omega⟩
    rw [Nat.mod_eq_sub_mod (by omega)]
    exact Nat.mod_eq_of_lt (by omega)

/-- Number of live elements determined by the stored indices, i.e.
`(head - tail) mod Capacity` in wrap-around arithmetic. -/
def liveElems (Cap : Nat) (s : SpscRing) : Nat := (s.head + Cap - s.tail) % Cap

/-- The abstract FIFO contents of the ring: the live slots read off in
order starting at `tail`. -/
def queueOf (Cap : Nat) (s : SpscRing) : List Nat :=
  (List.range (liveElems Cap s)).map (fun i => s.buf ((s.tail + i) % Cap))

theorem push_full_iff (Cap : Nat) (hC : 0 < Cap) (h t : Nat) (hh : h < Cap) (ht : t < Cap) :
    (h + 1) % Cap = t ↔ (h + Cap - t) % Cap = Cap - 1 := by
  have f1 := mod_facts hC (show h + 1 < 2 * Cap by omega)
  have f2 := mod_facts hC (show h + Cap - t < 2 * Cap by omega)
  omega

theorem pop_empty_iff (Cap : Nat) (hC : 0 < Cap) (h t : Nat) (hh : h < Cap) (ht : t < Cap) :
    t = h ↔ (h + Cap - t) % Cap = 0 := by
  have f2 := mod_facts hC (show h + Cap - t < 2 * Cap by omega)
  omega

theorem live_push_succ (Cap : Nat) (hC : 0 < Cap) (h t : Nat) (hh : h < Cap) (ht : t < Cap)
    (hne : (h + 1) % Cap ≠ t) :
    ((h + 1) % Cap + Cap - t) % Cap = (h + Cap - t) % Cap + 1 := by
  have f1 := mod_facts hC (show h + 1 < 2 * Cap by omega)
  have f2 := mod_facts hC (show (h + 1) % Cap + Cap - t < 2 * Cap by omega)
  have f3 := mod_facts hC (show h + Cap - t < 2 * Cap by omega)
  omega

theorem live_pop_pred (Cap : Nat) (hC : 0 < Cap) (h t : Nat) (hh : h < Cap) (ht : t < Cap)
    (hne : t ≠ h) :
    (h + Cap - (t + 1) % Cap) % Cap = (h + Cap - t) % Cap - 1 := by
  have f1 := mod_facts hC (show t + 1 < 2 * Cap by omega)
  have f2 := mod_facts hC (show h + Cap - (t + 1) % Cap < 2 * Cap by omega)
  have f3 := mod_facts hC (show h + Cap - t < 2 * Cap by omega)
  omega

theorem tail_add_live (Cap : Nat) (hC : 0 < Cap) (h t : Nat) (hh : h < Cap) (ht : t < Cap) :
    (t + (h + Cap - t) % Cap) % Cap = h := by
  have f3 := mod_facts hC (show h + Cap - t < 2 * Cap by omega)
  have f4 := mod_facts hC (show t + (h + Cap - t) % Cap < 2 * Cap by omega)
  omega

theorem mod_shift_inj (Cap : Nat) (hC : 0 < Cap) (t i j : Nat) (ht : t < Cap)
    (hi : i < Cap) (hj : j < Cap) (hij : (t + i) % Cap = (t + j) % Cap) : i = j := by
  have f1 := mod_facts hC (show t + i < 2 * Cap by omega)
  have f2 := mod_facts hC (show t + j < 2 * Cap by omega)
  omega

/-! ### Success and failure characterizations of the single operations -/

/-- The state produced by a successful `try_push`. -/
def pushState (Cap : Nat) (s : SpscRing) (x : Nat) : SpscRing :=
  { head := (s.head + 1) % Cap, tail := s.tail,
    buf := fun i => if i = s.head then x else s.buf i }

/-- The state produced by a successful `try_pop`. -/
def popState (Cap : Nat) (s : SpscRing) : SpscRing :=
  { head := s.head, tail := (s.tail + 1) % Cap, buf := s.buf }

theorem try_push_cases (Cap k : Nat) (hCap : Cap = 2 ^ k) (s : SpscRing) (x : Nat) :
    ((s.head + 1) % Cap = s.tail ∧ try_push Cap s x = (s, false)) ∨
    ((s.head + 1) % Cap ≠ s.tail ∧ try_push Cap s x = (pushState Cap s x, true)) := by
  rw [try_push_eq Cap k hCap s x]
  by_cases hfull : (s.head + 1) % Cap = s.tail
  · exact Or.inl ⟨hfull, by rw [if_pos hfull]⟩
  · exact Or.inr ⟨hfull, by rw [if_neg hfull]; rfl⟩

theorem try_pop_cases (Cap k : Nat) (hCap : Cap = 2 ^ k) (s : SpscRing) (out : Nat) :
    (s.tail = s.head ∧ try_pop Cap s out = (s, false, out)) ∨
    (s.tail ≠ s.head ∧ try_pop Cap s out = (popState Cap s, true, s.buf s.tail)) := by
  rw [try_pop_eq Cap k hCap s out]
  by_cases hempty : s.tail = s.head
  · exact Or.inl ⟨hempty, by rw [if_pos hempty]⟩
  · exact Or.inr ⟨hempty, by rw [if_neg hempty]; rfl⟩

/-! ### The queue abstraction of single push and pop steps -/

theorem queue_push_succ (Cap k : Nat) (hCap : Cap = 2 ^ k) (s : SpscRing) (x : Nat)
    (hh : s.head < Cap) (ht : s.tail < Cap) (hne : (s.head + 1) % Cap ≠ s.tail) :
    queueOf Cap (pushState Cap s x) = queueOf Cap s ++ [x] := by
  have hC : 0 < Cap := by subst hCap; exact Nat.two_pow_pos k
  unfold queueOf liveElems pushState
  dsimp only
  rw [live_push_succ Cap hC s.head s.tail hh ht hne]
  rw [List.range_succ, List.map_append]
  have hta := tail_add_live Cap hC s.head s.tail hh ht
  congr 1
  · apply List.map_congr_left
    intro i hi
    have hi' : i < (s.head + Cap - s.tail) % Cap := List.mem_range.mp hi
    have hlt : (s.head + Cap - s.tail) % Cap < Cap := Nat.mod_lt _ hC
    have hne2 : (s.tail + i) % Cap ≠ s.head := by
      intro he
      have heq2 : (s.tail + i) % Cap = (s.tail + (s.head + Cap - s.tail) % Cap) % Cap := by
        rw [he, hta]
      have hii : i < Cap := by omega
      have := mod_shift_inj Cap hC s.tail i ((s.head + Cap - s.tail) % Cap) ht hii hlt heq2
      omega
    simp [hne2]
  · simp [hta]

theorem queue_pop_succ (Cap k : Nat) (hCap : Cap = 2 ^ k) (s : SpscRing)
    (hh : s.head < Cap) (ht : s.tail < Cap) (hne : s.tail ≠ s.head) :
    queueOf Cap s = s.buf s.tail :: queueOf Cap (popState Cap s) := by
  have hC : 0 < Cap := by subst hCap; exact Nat.two_pow_pos k
  unfold queueOf liveElems popState
  dsimp only
  rw [live_pop_pred Cap hC s.head s.tail hh ht hne]
  have hL : (s.head + Cap - s.tail) % Cap ≠ 0 := by
    have hiff := pop_empty_iff Cap hC s.head s.tail hh ht
    omega
  obtain ⟨m, hm⟩ : ∃ m, (s.head + Cap - s.tail) % Cap = m + 1 :=
    ⟨(s.head + Cap - s.tail) % Cap - 1, by omega⟩
  rw [hm]
  rw [show m + 1 - 1 = m from by omega]
  rw [List.range_succ_eq_map, List.map_cons]
  congr 1
  · simp [Nat.mod_eq_of_lt ht]
  · rw [List.map_map]
    apply List.map_congr_left
    intro a ha
    show s.buf ((s.tail + (a + 1)) % Cap) = s.buf (((s.tail + 1) % Cap + a) % Cap)
    have harg : s.tail + (a + 1) = s.tail + 1 + a := by omega
    rw [harg, Nat.mod_add_mod]

/-! ### Runs of try_push / try_pop calls -/

/-- A single producer or consumer call in a sequential interleaving. -/
inductive RingOp where
  | push : Nat → RingOp
  | pop : RingOp

/-- Run a sequence of calls from a given state, collecting the values
accepted by `try_push` and the values returned by `try_pop` in order. -/
def runOps (Cap : Nat) (s : SpscRing) : List RingOp → SpscRing × List Nat × List Nat
  | [] => (s, [], [])
  | RingOp.push x :: ops =>
      let r := try_push Cap s x
      let rest := runOps Cap r.1 ops
      (rest.1, (if r.2 then [x] else []) ++ rest.2.1, rest.2.2)
  | RingOp.pop :: ops =>
      let r := try_pop Cap s 0
      let rest := runOps Cap r.1 ops
      (rest.1, rest.2.1, (if r.2.1 then [r.2.2] else []) ++ rest.2.2)

/-- The values a run attempts to push, in order. -/
def pushedVals : List RingOp → List Nat
  | [] => []
  | RingOp.push x :: ops => x :: pushedVals ops
  | RingOp.pop :: ops => pushedVals ops

theorem queueOf_init (Cap : Nat) (hC : 0 < Cap) : queueOf Cap initRing = [] := by
  unfold queueOf liveElems initRing
  dsimp only
  rw [show (0 + Cap - 0) % Cap = 0 from by simpa using Nat.mod_self Cap]
  rfl

/-- The FIFO simulation invariant: over any run, the popped values followed
by the remaining queue equal the initial queue followed by the accepted
pushed values, and the indices stay in range. -/
theorem runOps_fifo (Cap k : Nat) (hCap : Cap = 2 ^ k) :
    ∀ (ops : List RingOp) (s : SpscRing), s.head < Cap → s.tail < Cap →
      (runOps Cap s ops).1.head < Cap ∧ (runOps Cap s ops).1.tail < Cap ∧
      (runOps Cap s ops).2.2 ++ queueOf Cap (runOps Cap s ops).1 =
        queueOf Cap s ++ (runOps Cap s ops).2.1 := by
  have hC : 0 < Cap := by subst hCap; exact Nat.two_pow_pos k
  intro ops
  induction ops with
  | nil =>
      intro s hh ht
      exact ⟨hh, ht, by simp [runOps]⟩
  | cons op rest ih =>
      intro s hh ht
      cases op with
      | push x =>
          simp only [runOps]
          rcases try_push_cases Cap k hCap s x with ⟨hfull, heq⟩ | ⟨hne, heq⟩
          · rw [heq]
            dsimp only
            rcases ih s hh ht with ⟨ih1, ih2, ih3⟩
            refine ⟨ih1, ih2, ?_⟩
            simpa using ih3
          · rw [heq]
            dsimp only
            rcases ih (pushState Cap s x) (Nat.mod_lt _ hC) ht with ⟨ih1, ih2, ih3⟩
            refine ⟨ih1, ih2, ?_⟩
            rw [ih3, queue_push_succ Cap k hCap s x hh ht hne]
            simp
      | pop =>
          simp only [runOps]
          rcases try_pop_cases Cap k hCap s 0 with ⟨hempty, heq⟩ | ⟨hne, heq⟩
          · rw [heq]
            dsimp only
            rcases ih s hh ht with ⟨ih1, ih2, ih3⟩
            refine ⟨ih1, ih2, ?_⟩
            simpa using ih3
          · rw [heq]
            dsimp only
            rcases ih (popState Cap s) hh (Nat.mod_lt _ hC) with ⟨ih1, ih2, ih3⟩
            refine ⟨ih1, ih2, ?_⟩
            rw [queue_pop_succ Cap k hCap s hh ht hne]
            simpa using ih3

/-! ### C3: the live element count -/

/-- C3 counterexample: run push 5, pop, push 6 on a Capacity-2 ring.
Exactly one element is live afterwards, but `(head - tail) mod 2^64` is
`2^64 - 1`, not 1: the stored indices are masked residues modulo Capacity,
not free-running 64-bit counters. -/
theorem live_mod_width_counterexample :
    (runOps 2 initRing [RingOp.push 5, RingOp.pop, RingOp.push 6]).2.1.length -
        (runOps 2 initRing [RingOp.push 5, RingOp.pop, RingOp.push 6]).2.2.length = 1 ∧
    ¬ ((((runOps 2 initRing [RingOp.push 5, RingOp.pop, RingOp.push 6]).1.head : Int) -
          ((runOps 2 initRing [RingOp.push 5, RingOp.pop, RingOp.push 6]).1.tail : Int)) %
        (2 ^ 64 : Int) = 1) := by
  decide

/-- C3 (amended): in every state reachable from a fresh ring by a sequence
of `try_push` and `try_pop` calls, the number of live
(pushed-but-not-popped) elements equals `(head - tail) mod Capacity`
computed on the stored masked indices, and this count never exceeds
`Capacity - 1`. -/
theorem live_count_mod_capacity (Cap k : Nat) (hCap : Cap = 2 ^ k) (ops : List RingOp) :
    (runOps Cap initRing ops).2.2.length + liveElems Cap (runOps Cap initRing ops).1 =
      (runOps Cap initRing ops).2.1.length ∧
    liveElems Cap (runOps Cap initRing ops).1 ≤ Cap - 1 := by
  have hC : 0 < Cap := by subst hCap; exact Nat.two_pow_pos k
  have hmain := runOps_fifo Cap k hCap ops initRing hC hC
  have hlen := congrArg List.length hmain.2.2
  rw [queueOf_init Cap hC] at hlen
  simp only [List.length_append, List.nil_append, List.length_nil, queueOf,
    List.length_map, List.length_range] at hlen
  have hlt : liveElems Cap (runOps Cap initRing ops).1 < Cap := by
    unfold liveElems
    exact Nat.mod_lt _ hC
  exact ⟨by omega, by omega⟩

theorem live_count_mod_capacity_witness :
    (4 : Nat) = 2 ^ 2 ∧
    ((runOps 4 initRing [RingOp.push 1]).2.2.length +
        liveElems 4 (runOps 4 initRing [RingOp.push 1]).1 =
      (runOps 4 initRing [RingOp.push 1]).2.1.length ∧
      liveElems 4 (runOps 4 initRing [RingOp.push 1]).1 ≤ 4 - 1) :=
  ⟨by decide, live_count_mod_capacity 4 2 (by decide) [RingOp.push 1]⟩

/-! ### C4: FIFO order and wrap-around -/

/-- Interleave each pushed value with an immediate pop. -/
def altOps : List Nat → List RingOp
  | [] => []
  | x :: xs => RingOp.push x :: RingOp.pop :: altOps xs

theorem runOps_alt (Cap k : Nat) (hCap : Cap = 2 ^ k) (h2 : 2 ≤ Cap) :
    ∀ (xs : List Nat) (s : SpscRing), s.head < Cap → s.head = s.tail →
      (runOps Cap s (altOps xs)).2.1 = xs ∧ (runOps Cap s (altOps xs)).2.2 = xs := by
  have hC : 0 < Cap := by omega
  intro xs
  induction xs with
  | nil =>
      intro s hh hts
      constructor <;> simp [altOps, runOps]
  | cons x xs ih =>
      intro s hh hts
      have hne : (s.head + 1) % Cap ≠ s.tail := by
        have f1 := mod_facts hC (show s.head + 1 < 2 * Cap by omega)
        omega
      rcases try_push_cases Cap k hCap s x with ⟨hfull, _⟩ | ⟨_, heq⟩
      · exact absurd hfull hne
      · have hne2 : (pushState Cap s x).tail ≠ (pushState Cap s x).head := by
          unfold pushState
          dsimp only
          omega
        rcases try_pop_cases Cap k hCap (pushState Cap s x) 0 with ⟨hemp, _⟩ | ⟨_, heq2⟩
        · exact absurd hemp hne2
        · simp only [altOps, runOps]
          rw [heq]
          dsimp only
          rw [heq2]
          dsimp only
          have hval : (pushState Cap s x).buf (pushState Cap s x).tail = x := by
            unfold pushState
            dsimp only
            rw [if_pos hts.symm]
          have hh2 : (popState Cap (pushState Cap s x)).head < Cap := Nat.mod_lt _ hC
          have hts2 : (popState Cap (pushState Cap s x)).head =
              (popState Cap (pushState Cap s x)).tail := by
            unfold popState pushState
            dsimp only
            rw [hts]
          rcases ih (popState Cap (pushState Cap s x)) hh2 hts2 with ⟨ih1, ih2⟩
          rw [ih1, ih2, hval]
          constructor <;> simp

/-- C4: over any run in which no push fails, the popped values reproduce
the pushed values in order (they form a prefix, the remainder still being
queued); in particular, pushing and popping the 1000 sequential integers
one at a time through a Capacity-16 ring, wrapping the indices many times,
reproduces the exact input sequence at the output. -/
theorem fifo_order (Cap k : Nat) (hCap : Cap = 2 ^ k) (ops : List RingOp)
    (hall : (runOps Cap initRing ops).2.1 = pushedVals ops) :
    (∃ rest, (runOps Cap initRing ops).2.2 ++ rest = pushedVals ops) ∧
    (runOps 16 initRing (altOps (List.range 1000))).2.2 = List.range 1000 := by
  have hC : 0 < Cap := by subst hCap; exact Nat.two_pow_pos k
  constructor
  · have hmain := runOps_fifo Cap k hCap ops initRing hC hC
    refine ⟨queueOf Cap (runOps Cap initRing ops).1, ?_⟩
    rw [hmain.2.2, queueOf_init Cap hC, hall]
    simp
  · exact (runOps_alt 16 4 (by norm_num) (by norm_num) (List.range 1000) initRing
      (by decide) rfl).2

theorem fifo_order_witness :
    (4 : Nat) = 2 ^ 2 ∧
    (runOps 4 initRing [RingOp.push 3, RingOp.pop]).2.1 =
      pushedVals [RingOp.push 3, RingOp.pop] ∧
    ((∃ rest, (runOps 4 initRing [RingOp.push 3, RingOp.pop]).2.2 ++ rest =
        pushedVals [RingOp.push 3, RingOp.pop]) ∧
      (runOps 16 initRing (altOps (List.range 1000))).2.2 = List.range 1000) :=
  ⟨by decide, by decide,
   fifo_order 4 2 (by decide) [RingOp.push 3, RingOp.pop] (by decide)⟩

/-! ### C6: push_many / pop_many refine the iterated single operations -/

/-- Reference behaviour taken from the spec wording for `push_many`: call
`try_push` on the values in order, stop at the first failure, and count the
successes. -/
def pushIterRef (Cap : Nat) (s : SpscRing) : List Nat → SpscRing × Nat
  | [] => (s, 0)
  | v :: vs =>
      let r := try_push Cap s v
      if r.2 then
        let rest := pushIterRef Cap r.1 vs
        (rest.1, rest.2 + 1)
      else (r.1, 0)

/-- Reference behaviour taken from the spec wording for `pop_many`: iterate
`try_pop` up to the requested count, stop at the first empty failure, and
collect the popped values in order. -/
def popIterRef (Cap : Nat) (s : SpscRing) : Nat → SpscRing × List Nat
  | 0 => (s, [])
  | n + 1 =>
      let r := try_pop Cap s 0
      if r.2.1 then
        let rest := popIterRef Cap r.1 n
        (rest.1, r.2.2 :: rest.2)
      else (r.1, [])

theorem try_pop_bool_cases (Cap : Nat) (s : SpscRing) (out : Nat) :
    try_pop Cap s out = (s, false, out) ∨ (try_pop Cap s out).2.1 = true := by
  unfold try_pop
  dsimp only
  split
  · exact Or.inl rfl
  · exact Or.inr rfl

theorem try_pop_out_agree (Cap : Nat) (s : SpscRing) (a b : Nat) :
    (try_pop Cap s a).1 = (try_pop Cap s b).1 ∧
    (try_pop Cap s a).2.1 = (try_pop Cap s b).2.1 ∧
    ((try_pop Cap s a).2.1 = true → (try_pop Cap s a).2.2 = (try_pop Cap s b).2.2) := by
  unfold try_pop
  dsimp only
  split
  · exact ⟨rfl, rfl, fun hcontra => absurd hcontra (by simp)⟩
  · exact ⟨rfl, rfl, fun _ => rfl⟩

theorem push_many_go_spec (Cap : Nat) (xs : Nat → Nat) :
    ∀ (m i : Nat) (s : SpscRing),
      push_many_go Cap xs (i + m) s i =
        ((pushIterRef Cap s ((List.range m).map (fun j => xs (i + j)))).1,
          i + (pushIterRef Cap s ((List.range m).map (fun j => xs (i + j)))).2) := by
  intro m
  induction m with
  | zero =>
      intro i s
      rw [push_many_go]
      rw [dif_neg (by omega : ¬ i < i + 0)]
      simp [pushIterRef]
  | succ mm ih =>
      intro i s
      rw [push_many_go]
      rw [dif_pos (by omega : i < i + (mm + 1))]
      have hmaps : (List.range (mm + 1)).map (fun j => xs (i + j)) =
          xs i :: (List.range mm).map (fun j => xs (i + 1 + j)) := by
        rw [List.range_succ_eq_map, List.map_cons, List.map_map]
        congr 1
        apply List.map_congr_left
        intro a ha
        show xs (i + (a + 1)) = xs (i + 1 + a)
        congr 1
        omega
      rw [hmaps]
      simp only [pushIterRef]
      by_cases hok : (try_push Cap s (xs i)).2 = true
      · simp only [if_pos hok]
        rw [show i + (mm + 1) = (i + 1) + mm from by omega]
        rw [ih (i + 1) (try_push Cap s (xs i)).1]
        congr 1 <;> omega
      · simp only [if_neg hok]
        congr 1 <;> omega

theorem pop_many_go_spec (Cap : Nat) :
    ∀ (m i : Nat) (s : SpscRing) (out : Nat → Nat),
      (pop_many_go Cap (i + m) s out i).1 = (popIterRef Cap s m).1 ∧
      (pop_many_go Cap (i + m) s out i).2.2 = i + (popIterRef Cap s m).2.length ∧
      ∀ j : Nat,
        (pop_many_go Cap (i + m) s out i).2.1 j =
          if i ≤ j ∧ j < i + (popIterRef Cap s m).2.length
          then (popIterRef Cap s m).2.getD (j - i) 0
          else out j := by
  intro m
  induction m with
  | zero =>
      intro i s out
      rw [pop_many_go]
      rw [dif_neg (by omega : ¬ i < i + 0)]
      refine ⟨rfl, by simp [popIterRef], ?_⟩
      intro j
      simp only [popIterRef, List.length_nil]
      rw [if_neg (by omega)]
  | succ mm ih =>
      intro i s out
      rw [pop_many_go]
      rw [dif_pos (by omega : i < i + (mm + 1))]
      simp only [popIterRef]
      have hagree := try_pop_out_agree Cap s (out i) 0
      rcases try_pop_bool_cases Cap s 0 with hrfail | hrok
      · -- the reference pop fails, hence so does the pop inside the loop
        have hfailb : (try_pop Cap s (out i)).2.1 = false := by
          rw [hagree.2.1, hrfail]
        rcases try_pop_bool_cases Cap s (out i) with hfail | hok
        · rw [hfail, hrfail]
          dsimp only
          simp only [Bool.false_eq_true, if_false, List.length_nil]
          refine ⟨by trivial, by trivial, ?_⟩
          intro j
          rw [if_neg (show ¬ (i ≤ j ∧ j < i + 0) from by omega)]
          by_cases hj : j = i
          · rw [if_pos hj, hj]
          · rw [if_neg hj]
        · rw [hok] at hfailb
          exact absurd hfailb (by simp)
      · -- the reference pop succeeds, and so does the pop inside the loop
        have hok : (try_pop Cap s (out i)).2.1 = true := by rw [hagree.2.1, hrok]
        have hval : (try_pop Cap s (out i)).2.2 = (try_pop Cap s 0).2.2 := hagree.2.2 hok
        have hstate : (try_pop Cap s (out i)).1 = (try_pop Cap s 0).1 := hagree.1
        simp only [if_pos hok, if_pos hrok]
        rw [show i + (mm + 1) = (i + 1) + mm from by omega]
        have hih := ih (i + 1) (try_pop Cap s (out i)).1
          (fun j => if j = i then (try_pop Cap s (out i)).2.2 else out j)
        rw [hstate] at hih ⊢
        refine ⟨hih.1, ?_, ?_⟩
        · rw [hih.2.1]
          simp only [List.length_cons]
          omega
        · intro j
          rw [hih.2.2 j]
          simp only [List.length_cons]
          by_cases hj1 : j = i
          · subst hj1
            rw [if_neg (show ¬ (j + 1 ≤ j ∧
                  j < j + 1 + (popIterRef Cap (try_pop Cap s 0).1 mm).2.length) from
                by omega),
              if_pos (show j ≤ j ∧
                  j < j + ((popIterRef Cap (try_pop Cap s 0).1 mm).2.length + 1) from
                ⟨by omega, by omega⟩)]
            rw [if_pos rfl, hval, show j - j = 0 from by omega, List.getD_cons_zero]
          · by_cases hj2 : i + 1 ≤ j ∧
                j < i + 1 + (popIterRef Cap (try_pop Cap s 0).1 mm).2.length
            · rw [if_pos hj2,
                if_pos (show i ≤ j ∧
                    j < i + ((popIterRef Cap (try_pop Cap s 0).1 mm).2.length + 1) from
                  ⟨by omega, by omega⟩)]
              rw [show j - i = (j - (i + 1)) + 1 from by omega, List.getD_cons_succ]
            · rw [if_neg hj2,
                if_neg (show ¬ (i ≤ j ∧
                    j < i + ((popIterRef Cap (try_pop Cap s 0).1 mm).2.length + 1)) from
                  by omega)]
              rw [if_neg hj1]

/-- C6: `push_many(xs, n)` produces exactly the state and count of calling
`try_push` on `xs[0], xs[1], ...` stopping at the first failure or after
`n` successes, and `pop_many(out, n)` produces exactly the state, written
output prefix, and count of iterating `try_pop` stopping at the first
empty failure. -/
theorem many_ops_refine_iteration (Cap : Nat) (s : SpscRing) (xs out : Nat → Nat) (n : Nat) :
    push_many Cap s xs n = pushIterRef Cap s ((List.range n).map xs) ∧
    (pop_many Cap s out n).1 = (popIterRef Cap s n).1 ∧
    (pop_many Cap s out n).2.2 = (popIterRef Cap s n).2.length ∧
    ∀ j : Nat,
      (pop_many Cap s out n).2.1 j =
        if j < (popIterRef Cap s n).2.length then (popIterRef Cap s n).2.getD j 0
        else out j := by
  refine ⟨?_, ?_⟩
  · unfold push_many
    have h := push_many_go_spec Cap xs n 0 s
    simp only [Nat.zero_add] at h
    rw [h]
  · unfold pop_many
    have h := pop_many_go_spec Cap n 0 s out
    simp only [Nat.zero_add] at h
    refine ⟨h.1, h.2.1, ?_⟩
    intro j
    rw [h.2.2 j]
    by_cases hlt : j < (popIterRef Cap s n).2.length
    · rw [if_pos ⟨Nat.zero_le j, hlt⟩, if_pos hlt]
      rw [show j - 0 = j from by omega]
    · rw [if_neg (by omega), if_neg hlt]

/-! ### C7: the compile-time capacity check -/

theorem testBit_of_between {x j : Nat} (h1 : 2 ^ j ≤ x) (h2 : x < 2 ^ (j + 1)) :
    Nat.testBit x j = true := by
  rw [Nat.testBit_to_div_mod]
  have hdiv : x / 2 ^ j = 1 := by
    apply Nat.div_eq_of_lt_le
    · simpa using h1
    · rw [Nat.pow_succ] at h2
      omega
  simp [hdiv]

/-- C7 counterexample: capacity 1 is less than 2, yet it passes the
compile-time `static_assert` check, and the resulting ring silently rejects
every push instead of failing at construction. -/
theorem capacity_one_accepted :
    capacityCheck 1 = true ∧ (1 : Nat) < 2 ∧ (try_push 1 initRing 7).2 = false := by
  decide

/-- C7 (amended): for positive capacity the `static_assert` accepts exactly
the powers of two, so a non-power-of-two capacity is rejected at compile
time; however the power of two 1, although below the documented minimum of
2, passes the check as well. -/
theorem capacity_check_power_of_two (Cap : Nat) (hC : 0 < Cap) :
    (capacityCheck Cap = true ↔ ∃ j, Cap = 2 ^ j) ∧ capacityCheck 1 = true := by
  refine ⟨?_, by decide⟩
  unfold capacityCheck
  rw [beq_iff_eq]
  constructor
  · intro h
    refine ⟨Nat.log 2 Cap, ?_⟩
    by_contra hne
    have h1 : 2 ^ Nat.log 2 Cap ≤ Cap := Nat.pow_log_le_self 2 (by omega)
    have h2 : Cap < 2 ^ (Nat.log 2 Cap + 1) := Nat.lt_pow_succ_log_self (by omega) Cap
    have h3 : 2 ^ Nat.log 2 Cap < Cap := lt_of_le_of_ne h1 (fun e => hne e.symm)
    have hb1 : Nat.testBit Cap (Nat.log 2 Cap) = true := testBit_of_between h1 h2
    have hb2 : Nat.testBit (Cap - 1) (Nat.log 2 Cap) = true :=
      testBit_of_between (by omega) (by omega)
    have hb : Nat.testBit (Cap &&& (Cap - 1)) (Nat.log 2 Cap) = true := by
      rw [Nat.testBit_and, hb1, hb2]
      rfl
    rw [h] at hb
    simp at hb
  · rintro ⟨j, rfl⟩
    have hmask : (2 : Nat) ^ j - 1 = mask (2 ^ j) := rfl
    rw [hmask, mask_eq_mod]
    exact Nat.mod_self _

theorem capacity_check_power_of_two_witness :
    (0 : Nat) < 4 ∧
    ((capacityCheck 4 = true ↔ ∃ j, (4 : Nat) = 2 ^ j) ∧ capacityCheck 1 = true) :=
  ⟨by decide, capacity_check_power_of_two 4 (by decide)⟩

/-! ### C10: stored indices stay below Capacity -/

/-- Ring states reachable from a freshly constructed ring by any sequence of
`try_push`, `try_pop`, `push_many` and `pop_many` calls. -/
inductive Reachable (Cap : Nat) : SpscRing → Prop where
  | init : Reachable Cap initRing
  | push (s : SpscRing) (x : Nat) : Reachable Cap s → Reachable Cap (try_push Cap s x).1
  | pop (s : SpscRing) (out : Nat) : Reachable Cap s → Reachable Cap (try_pop Cap s out).1
  | pushMany (s : SpscRing) (xs : Nat → Nat) (n : Nat) :
      Reachable Cap s → Reachable Cap (push_many Cap s xs n).1
  | popMany (s : SpscRing) (out : Nat → Nat) (n : Nat) :
      Reachable Cap s → Reachable Cap (pop_many Cap s out n).1

theorem try_push_fst_lt (Cap : Nat) (s : SpscRing) (x : Nat)
    (h : s.head < Cap ∧ s.tail < Cap) :
    (try_push Cap s x).1.head < Cap ∧ (try_push Cap s x).1.tail < Cap := by
  have hle : (s.head + 1) &&& mask Cap ≤ mask Cap := Nat.and_le_right
  have hm : mask Cap = Cap - 1 := rfl
  unfold try_push
  simp only []
  split
  · exact h
  · exact ⟨by show s.head + 1 &&& mask Cap < Cap; omega, h.2⟩

theorem try_pop_fst_lt (Cap : Nat) (s : SpscRing) (out : Nat)
    (h : s.head < Cap ∧ s.tail < Cap) :
    (try_pop Cap s out).1.head < Cap ∧ (try_pop Cap s out).1.tail < Cap := by
  have hle : (s.tail + 1) &&& mask Cap ≤ mask Cap := Nat.and_le_right
  have hm : mask Cap = Cap - 1 := rfl
  unfold try_pop
  simp only []
  split
  · exact h
  · exact ⟨h.1, by show s.tail + 1 &&& mask Cap < Cap; omega⟩

theorem push_many_go_fst_lt (Cap : Nat) (xs : Nat → Nat) :
    ∀ (fuel n pushed : Nat) (s : SpscRing), n - pushed ≤ fuel →
      s.head < Cap ∧ s.tail < Cap →
      (push_many_go Cap xs n s pushed).1.head < Cap ∧
        (push_many_go Cap xs n s pushed).1.tail < Cap := by
  intro fuel
  induction fuel with
  | zero =>
      intro n pushed s hle h
      rw [push_many_go]
      split
      · omega
      · exact h
  | succ m ih =>
      intro n pushed s hle h
      rw [push_many_go]
      simp only []
      split
      · split
        · exact ih n (pushed + 1) _ (by omega) (try_push_fst_lt Cap s _ h)
        · exact try_push_fst_lt Cap s _ h
      · exact h

theorem pop_many_go_fst_lt (Cap : Nat) :
    ∀ (fuel n popped : Nat) (s : SpscRing) (out : Nat → Nat), n - popped ≤ fuel →
      s.head < Cap ∧ s.tail < Cap →
      (pop_many_go Cap n s out popped).1.head < Cap ∧
        (pop_many_go Cap n s out popped).1.tail < Cap := by
  intro fuel
  induction fuel with
  | zero =>
      intro n popped s out hle h
      rw [pop_many_go]
      split
      · omega
      · exact h
  | succ m ih =>
      intro n popped s out hle h
      rw [pop_many_go]
      simp only []
      split
      · split
        · exact ih n (popped + 1) _ _ (by omega) (try_pop_fst_lt Cap s _ h)
        · exact try_pop_fst_lt Cap s _ h
      · exact h

/-- C10: every state reachable from construction by any sequence of
`try_push`, `try_pop`, `push_many` and `pop_many` calls keeps both stored
index values strictly below `Capacity`: the operations store the
already-masked value back into the index. -/
theorem indices_lt_capacity (Cap : Nat) (hC : 0 < Cap) (s : SpscRing)
    (hr : Reachable Cap s) : s.head < Cap ∧ s.tail < Cap := by
  induction hr with
  | init => exact ⟨hC, hC⟩
  | push s x _ ih => exact try_push_fst_lt Cap s x ih
  | pop s out _ ih => exact try_pop_fst_lt Cap s out ih
  | pushMany s xs n _ ih => exact push_many_go_fst_lt Cap xs (n - 0) n 0 s (by omega) ih
  | popMany s out n _ ih => exact pop_many_go_fst_lt Cap (n - 0) n 0 s out (by omega) ih

theorem indices_lt_capacity_witness :
    (0 : Nat) < 4 ∧ (initRing.head < 4 ∧ initRing.tail < 4) :=
  ⟨by decide, indices_lt_capacity 4 (by decide) initRing Reachable.init⟩

/-! ### Sharded counter aggregator (counters_contention.cpp) -/

/-- The value range of the `uint64_t` shard and sum variables. -/
def U64 : Nat := 2 ^ 64

/-- The accumulation loop of one owning thread: `shards[t].v += 1` executed
`iters` times on a `uint64_t` field, with wrap-around. -/
def shardLoop : Nat → Nat → Nat
  | 0, v => v
  | k + 1, v => shardLoop k ((v + 1) % U64)

/-- The shard vector after all threads have run and joined: each of the
`threads` zero-initialized `PaddedCounter` values incremented `iters` times
by its owning thread. -/
def shardsAfterRun (threads iters : Nat) : List Nat :=
  (List.replicate threads 0).map (shardLoop iters)

/-- The single-threaded reduction pass: `sum += pc.v` over all shards. -/
def reduceShards (shards : List Nat) : Nat :=
  shards.foldl (fun sum v => (sum + v) % U64) 0

theorem shardLoop_eq (k : Nat) : ∀ v : Nat, v < U64 → shardLoop k v = (v + k) % U64 := by
  induction k with
  | zero =>
      intro v hv
      simpa using (Nat.mod_eq_of_lt hv).symm
  | succ m ih =>
      intro v hv
      have h1 : shardLoop (m + 1) v = shardLoop m ((v + 1) % U64) := rfl
      rw [h1, ih _ (Nat.mod_lt _ (Nat.two_pow_pos 64)), Nat.mod_add_mod]
      congr 1
      omega

theorem reduceShards_replicate (N c : Nat) :
    ∀ a : Nat, a < U64 →
      (List.replicate N c).foldl (fun sum v => (sum + v) % U64) a = (a + N * c) % U64 := by
  induction N with
  | zero =>
      intro a ha
      simpa using (Nat.mod_eq_of_lt ha).symm
  | succ m ih =>
      intro a ha
      rw [List.replicate_succ, List.foldl_cons,
          ih _ (Nat.mod_lt _ (Nat.two_pow_pos 64)), Nat.mod_add_mod]
      congr 1
      ring

/-- C8: for `N` counter shards each incremented exactly `K` times by its
owning thread, the post-join reduction over all shards returns exactly
`N * K`, for `N ∈ {1,2,4,8}` and `K ∈ {1, 1000, 1000000}`. -/
theorem sharded_counters_reduce (N K : Nat)
    (hN : N ∈ ([1, 2, 4, 8] : List Nat)) (hK : K ∈ ([1, 1000, 1000000] : List Nat)) :
    reduceShards (shardsAfterRun N K) = N * K := by
  have hK64 : K < U64 := by fin_cases hK <;> decide
  have hNK : N * K < U64 := by fin_cases hN <;> fin_cases hK <;> decide
  unfold reduceShards shardsAfterRun
  rw [List.map_replicate, shardLoop_eq K 0 (Nat.two_pow_pos 64), Nat.zero_add,
      Nat.mod_eq_of_lt hK64, reduceShards_replicate N K 0 (Nat.two_pow_pos 64),
      Nat.zero_add]
  exact Nat.mod_eq_of_lt hNK

theorem sharded_counters_reduce_witness :
    (2 : Nat) ∈ ([1, 2, 4, 8] : List Nat) ∧
    (1000 : Nat) ∈ ([1, 1000, 1000000] : List Nat) ∧
    reduceShards (shardsAfterRun 2 1000) = 2 * 1000 :=
  ⟨by decide, by decide, sharded_counters_reduce 2 1000 (by decide) (by decide)⟩

end SpscBench
